import Mathlib

/-!
# Verification of the `zxcvbn` password-strength estimator facade

A shallow embedding of the crate's public entry point `zxcvbn` (src/lib.rs)
together with the collaborating modules it calls.  Only `lib.rs` is among the
provided sources; the modules `matching`, `scoring`, `time_estimates`,
`feedback` and `serialization_utils` are declared there but their files are
not provided, so they are modelled from the specification (each such
definition carries a doc comment starting with `Modelled from the spec:`).

Modelling conventions:
* Strings are handled as their lists of Unicode scalar values (`List Char`),
  matching the code's use of `password.chars()`.
* Guess counts are modelled as exact natural numbers.  In the code they are
  IEEE doubles holding integer-valued products of ranks, multipliers,
  factorials and powers of ten; the model uses exact integer arithmetic in
  place of floating arithmetic.
* `guesses_log10` is a float that is negative infinity exactly for the empty
  password and otherwise `log10` of a value ≥ 1.  It is modelled by `GLog`:
  either `negInf` or `finite g`, where `finite g` stands for the finite float
  `log10 g` of the positive unsaturated guess value `g`.
* A Rust panic is modelled as `Option.none`; the one fallible internal step
  (reading the final DP cell) is made explicit, and totality is a theorem.
* Wall-clock instrumentation (`calc_time`, `time_scoped`) is external
  measurement with no bearing on the computed fields; it is omitted from the
  modelled `Entropy`.
-/

namespace Zxcvbn

/-- Saturation bound for the `u64` guesses field. -/
def U64_MAX : Nat := 18446744073709551615

/-- Modelled from the spec: `scoring::Score`, the 0–4 strength bucket
(a pure function of total guesses); the `scoring` module is not among the
provided sources. -/
inductive Score where
  | Zero
  | One
  | Two
  | Three
  | Four
deriving DecidableEq, Repr

/-- Numeric value of a score, used to state monotonicity. -/
def Score.toNat : Score → Nat
  | .Zero => 0
  | .One => 1
  | .Two => 2
  | .Three => 3
  | .Four => 4

/-- Modelled from the spec: the kind of a `matching::Match` (the `matching`
module is not among the provided sources).  With the external reference data
tables absent, the kinds that can arise here are dictionary matches against
the caller-supplied user-input word list, and the synthetic bruteforce filler
emitted by the scoring engine. -/
inductive MatchKind where
  | dictionary (word : List Char) (rank : Nat)
  | bruteforce
deriving DecidableEq, Repr

/-- Modelled from the spec: `matching::Match`, a candidate explanation for
`password[i..=j]` (0-indexed inclusive character offsets) with its estimated
guess count. -/
structure Match where
  kind : MatchKind
  i : Nat
  j : Nat
  guesses : Nat
deriving DecidableEq, Repr

/-! ## Matcher engine (user-input dictionary sub-matcher)

Modelled from the spec: the `matching` module is not among the provided
sources.  The engine is the union of independent sub-matchers; the
sub-matchers that need the external reference data tables (ranked frequency
dictionaries, keyboard adjacency graphs, the l33t substitution table, the
date/sequence calibrations) have no data to match against here, so the
modelled engine consists of the dictionary sub-matcher running against the
sanitized user-input list, the one ranked word list the caller supplies.
Uncovered spans are handled by the scoring engine's bruteforce filler, as the
spec specifies. -/

/-- ASCII lowercasing of one scalar, modelling case-folding of a token before
dictionary lookup. -/
def lowerChar (c : Char) : Char := c.toLower

/-- The characters `pw[i..=j]` (inclusive bounds). -/
def slice (pw : List Char) (i j : Nat) : List Char :=
  (pw.drop i).take (j - i + 1)

/-- Look a (lowercased) token up in a ranked word list: the rank of the first
entry whose word equals the token. -/
def lookupRank (ranked : List (List Char × Nat)) (w : List Char) : Option Nat :=
  (ranked.find? (fun p => p.1 == w)).map (·.2)

/-- Modelled from the spec: the uppercase-pattern multiplier for a dictionary
match — 1 for an all-lowercase or single-leading-capital token, otherwise a
combinatorial count of capitalization choices. -/
def uppercaseVariations (token : List Char) : Nat :=
  let upper := (token.filter (fun c => c.isUpper)).length
  let lower := (token.filter (fun c => c.isLower)).length
  if upper = 0 then 1
  else if (token.headD ' ').isUpper ∧ upper = 1 then 1
  else max 2 ((List.range (min upper lower)).foldl
    (fun acc idx => acc + Nat.choose (upper + lower) (idx + 1)) 0)

/-- Modelled from the spec: the dictionary sub-matcher — every substring whose
case-folded form appears in the ranked word list yields a match with
`guesses = rank × uppercase-pattern multiplier`. -/
def dictionaryMatch (pw : List Char) (ranked : List (List Char × Nat)) :
    List Match :=
  (List.range pw.length).flatMap (fun i =>
    (List.range pw.length).filterMap (fun j =>
      if i ≤ j then
        match lookupRank ranked ((slice pw i j).map lowerChar) with
        | some rank =>
          some { kind := .dictionary ((slice pw i j).map lowerChar) rank,
                 i := i, j := j,
                 guesses := rank * uppercaseVariations (slice pw i j) }
        | none => none
      else none))

/-- Modelled from the spec: `matching::omnimatch`, the union of all
sub-matchers' results (overlaps allowed; order irrelevant to scoring). -/
def omnimatch (pw : List Char) (sanitizedInputs : List (List Char × Nat)) :
    List Match :=
  dictionaryMatch pw sanitizedInputs

/-! ## Scoring engine

Modelled from the spec: `scoring::most_guessable_match_sequence`; the
`scoring` module is not among the provided sources.  A dynamic program over
prefix end-positions selects the minimum-guesses decomposition; the DP cell
at end-position `k` maps each live decomposition length `l` to the best
state, and instead of a backpointer each state carries the sequence it
reconstructs to. -/

/-- The factorial `l!`, the term modelling the attacker trying the `l`
pattern types in any order. -/
def fact : Nat → Nat
  | 0 => 1
  | n + 1 => (n + 1) * fact n

/-- One DP state: decomposition length `l`, product of per-match guesses
`pi`, tie-adjusted total `g = l! * pi`, and the decomposition it stands for
(in place of the code's backpointer chain). -/
structure Entry where
  l : Nat
  pi : Nat
  g : Nat
  seq : List Match
deriving DecidableEq, Repr

/-- Insert a candidate into a DP cell: it is kept at its length `l` only if
no state already recorded for that `l` has `g` at most as low. -/
def insertEntry (cell : List Entry) (c : Entry) : List Entry :=
  if cell.any (fun e => decide (e.l = c.l ∧ e.g ≤ c.g)) then cell
  else c :: cell.filter (fun e => e.l ≠ c.l)

/-- The length-1 decomposition consisting of the single match `m`
(`1! * pi = pi`). -/
def baseEntry (m : Match) : Entry :=
  { l := 1, pi := m.guesses, g := m.guesses, seq := [m] }

/-- Extend a decomposition ending at `m.i - 1` with the match `m`:
`pi` is multiplied by `m.guesses` and `g = (l+1)! * pi`. -/
def extendEntry (e : Entry) (m : Match) : Entry :=
  { l := e.l + 1, pi := m.guesses * e.pi,
    g := fact (e.l + 1) * (m.guesses * e.pi), seq := e.seq ++ [m] }

/-- Candidate states contributed by a real match `m` ending at the current
position: a length-1 decomposition when `m` starts at 0, otherwise one
extension of every live state at `m.i - 1`. -/
def candidatesFor (table : List (List Entry)) (m : Match) : List Entry :=
  if m.i = 0 then [baseEntry m]
  else (table.getD (m.i - 1) []).map (fun e => extendEntry e m)

/-- Whether the last match of a decomposition is the synthetic bruteforce
filler (two adjacent bruteforce matches are never admitted). -/
def lastIsBruteforce (seq : List Match) : Bool :=
  match seq.getLast? with
  | some m => match m.kind with
    | .bruteforce => true
    | _ => false
  | none => false

/-- Modelled from the spec: bruteforce-filler guesses — `10^length`, floored
at a fixed minimum that is distinct for single-character and multi-character
spans. -/
def bruteforceGuesses (len : Nat) : Nat :=
  max (10 ^ len) (if len = 1 then 10 else 50)

/-- The synthetic bruteforce match spanning `[i, j]`. -/
def bruteforceMatch (i j : Nat) : Match :=
  { kind := .bruteforce, i := i, j := j, guesses := bruteforceGuesses (j - i + 1) }

/-- Candidate states contributed by the bruteforce fillers ending at `k`:
for every `i ≤ k` the filler spanning `[i, k]`, seeded as a length-1
decomposition when `i = 0` and otherwise extending every live state at
`i - 1` whose stored last match is not itself bruteforce. -/
def bruteforceCandidates (table : List (List Entry)) (k : Nat) : List Entry :=
  (List.range (k + 1)).flatMap (fun i =>
    if i = 0 then [baseEntry (bruteforceMatch 0 k)]
    else (table.getD (i - 1) []).filterMap (fun e =>
      if lastIsBruteforce e.seq then none
      else some (extendEntry e (bruteforceMatch i k))))

/-- The DP cell at end-position `k`: all candidates from real matches ending
at `k`, then from the bruteforce fillers, merged under the keep-minimal rule. -/
def computeCell (ms : List Match) (table : List (List Entry)) (k : Nat) :
    List Entry :=
  ((ms.filter (fun m => m.j == k)).flatMap (candidatesFor table)
    ++ bruteforceCandidates table k).foldl insertEntry []

/-- The DP table for end-positions `0 .. n-1`, built in increasing order. -/
def buildTable (ms : List Match) : Nat → List (List Entry)
  | 0 => []
  | n + 1 =>
    let t := buildTable ms n
    t ++ [computeCell ms t n]

/-- The winner of the final cell: minimum `g`, ties resolved towards the
smallest decomposition length `l`. -/
def pickBest : List Entry → Option Entry
  | [] => none
  | e :: es =>
    some (es.foldl (fun b x =>
      if x.g < b.g ∨ (x.g = b.g ∧ x.l < b.l) then x else b) e)

/-- The float `guesses_log10`: negative infinity, or the finite `log10` of
the positive unsaturated guess count `g` (represented by `g` itself, since
exact logarithms are not rational). -/
inductive GLog where
  | negInf
  | finite (g : Nat)
deriving DecidableEq, Repr

/-- What the scoring engine returns: the saturated integer guess count, its
order of magnitude, and the winning decomposition. -/
structure ScoringResult where
  guesses : Nat
  guesses_log10 : GLog
  sequence : List Match
deriving DecidableEq, Repr

/-- Modelled from the spec: `scoring::most_guessable_match_sequence`.
`none` models a panic (a final DP cell left unfilled — shown unreachable);
the guard rail returns zero guesses and the empty sequence for an empty
password without running the DP, and otherwise the winning `g` is saturated
to `U64_MAX` while `guesses_log10` is taken from the unsaturated value. -/
def most_guessable_match_sequence (pw : List Char) (ms : List Match) :
    Option ScoringResult :=
  if pw.length = 0 then
    some { guesses := 0, guesses_log10 := .negInf, sequence := [] }
  else
    match pickBest ((buildTable ms pw.length).getD (pw.length - 1) []) with
    | none => none
    | some e =>
      some { guesses := min e.g U64_MAX, guesses_log10 := .finite e.g,
             sequence := e.seq }

/-! ## Crack-time & score mapper

Modelled from the spec: the `time_estimates` module is not among the provided
sources.  Seconds per attacker scenario are `total_guesses / scenario_rate`
(online throttled at 100 guesses per hour, online unthrottled at 10 per
second, offline slow hash at 10⁴ per second, offline fast hash at 10¹⁰ per
second); the score is a step function of the guess count against the
ascending thresholds 10³, 10⁶, 10⁸, 10¹⁰. -/

/-- Modelled from the spec: `time_estimates::CrackTimes` — one duration in
seconds per fixed attacker scenario, each a division of the guess count by
the scenario's guesses-per-second rate. -/
structure CrackTimes where
  online_throttling : ℚ
  online_no_throttling : ℚ
  offline_slow_hashing : ℚ
  offline_fast_hashing : ℚ
deriving DecidableEq, Repr

/-- Modelled from the spec: `CrackTimes::new`, the per-scenario divisions for
a given guess count. -/
def CrackTimes.new (guesses : Nat) : CrackTimes :=
  { online_throttling := (guesses : ℚ) / (100 / 3600)
    online_no_throttling := (guesses : ℚ) / 10
    offline_slow_hashing := (guesses : ℚ) / 10000
    offline_fast_hashing := (guesses : ℚ) / (10 ^ 10 : ℚ) }

/-- Modelled from the spec: the score step function — below 10³ is `Zero`,
then `One`, `Two`, `Three` at each successive threshold, and at or above
10¹⁰ it is `Four`. -/
def scoreFromGuesses (guesses : Nat) : Score :=
  if guesses < 10 ^ 3 then .Zero
  else if guesses < 10 ^ 6 then .One
  else if guesses < 10 ^ 8 then .Two
  else if guesses < 10 ^ 10 then .Three
  else .Four

/-- Modelled from the spec: `time_estimates::estimate_attack_times`, the pure
map from the guess count to crack times and score. -/
def estimate_attack_times (guesses : Nat) : CrackTimes × Score :=
  (CrackTimes.new guesses, scoreFromGuesses guesses)

/-! ## Feedback generator

Modelled from the spec: the `feedback` module is not among the provided
sources.  Feedback is a pure lookup keyed by the score and the winning
sequence's dominant (top-level) pattern kind, present only when the score is
at most 2; an empty password yields no feedback. -/

/-- Modelled from the spec: `feedback::Feedback`, the structured suggestion
keyed by score and dominant pattern kind. -/
structure Feedback where
  score : Score
  dominant : Option MatchKind
deriving DecidableEq, Repr

/-- The longest match of the winning sequence, whose kind keys the feedback
text. -/
def longestMatch : List Match → Option Match
  | [] => none
  | m :: ms =>
    some (ms.foldl (fun b x => if b.j - b.i < x.j - x.i then x else b) m)

/-- Modelled from the spec: `feedback::get_feedback` — no feedback for an
empty sequence (the empty password) or for a score above 2, otherwise a
suggestion keyed by the score and the dominant pattern kind. -/
def get_feedback (score : Score) (sequence : List Match) : Option Feedback :=
  if sequence.isEmpty then none
  else if 2 < score.toNat then none
  else some { score := score, dominant := (longestMatch sequence).map (·.kind) }

/-! ## The public facade (src/lib.rs) -/

/-- The results of an entropy calculation (src/lib.rs `Entropy`), without the
wall-clock `calc_time` field, which is external instrumentation. -/
structure Entropy where
  guesses : Nat
  guesses_log10 : GLog
  crack_times : CrackTimes
  score : Score
  feedback : Option Feedback
  sequence : List Match
deriving DecidableEq, Repr

/-- The `Entropy` returned for an empty password (src/lib.rs lines 150–160). -/
def emptyEntropy : Entropy :=
  { guesses := 0, guesses_log10 := .negInf, crack_times := CrackTimes.new 0,
    score := .Zero, feedback := get_feedback .Zero [], sequence := [] }

/-- Sanitization of the user inputs (src/lib.rs lines 167–171): each entry is
case-folded and paired with the 1-based rank `index + 1` of its position in
the caller's order. -/
def sanitizeInputsFrom (idx : Nat) : List String → List (List Char × Nat)
  | [] => []
  | x :: xs => (x.data.map lowerChar, idx + 1) :: sanitizeInputsFrom (idx + 1) xs

/-- Rust's `user_inputs.iter().enumerate().map(|(i, x)| (x.to_lowercase(), i + 1))`
from src/lib.rs, starting the enumeration at index 0. -/
def sanitizeInputs (userInputs : List String) : List (List Char × Nat) :=
  sanitizeInputsFrom 0 userInputs

/-- Assembly of the public result from the scoring result (src/lib.rs lines
176–187): crack times and score are derived from the scoring result's
guesses, and feedback from that score and the scoring result's sequence. -/
def assembleEntropy (result : ScoringResult) : Entropy :=
  { guesses := result.guesses
    guesses_log10 := result.guesses_log10
    crack_times := (estimate_attack_times result.guesses).1
    score := (estimate_attack_times result.guesses).2
    feedback := get_feedback (estimate_attack_times result.guesses).2 result.sequence
    sequence := result.sequence }

/-- The public analysis function `zxcvbn` (src/lib.rs lines 149–188), with a
Rust panic modelled as `none`.  The empty password short-circuits; otherwise
the password is truncated to its first 100 characters, the user inputs are
sanitized, the matcher and scorer run, and crack times, score and feedback
are derived from the scoring result. -/
def zxcvbnOpt (password : String) (userInputs : List String) : Option Entropy :=
  if password.data = [] then some emptyEntropy
  else
    (most_guessable_match_sequence (password.data.take 100)
      (omnimatch (password.data.take 100) (sanitizeInputs userInputs))).map
      assembleEntropy

/-- The public analysis function as the total function it is proved to be
(`zxcvbnOpt` never returns `none`). -/
def zxcvbn (password : String) (userInputs : List String) : Entropy :=
  (zxcvbnOpt password userInputs).getD emptyEntropy

/-! ## Serialization adapter

Modelled from the spec: the `serialization_utils` module (and the serde
derive on `Entropy`) is not among the provided sources.  The serialized form
mirrors `Entropy`'s fields, except that `guesses_log10` is a nullable number:
non-finite values are encoded as null/absent and decoded back to the
non-finite float. -/

/-- Modelled from the spec: the serialized record mirroring `Entropy`, with
`guesses_log10` nullable (`none` is the null/absent encoding of a non-finite
value). -/
structure SerializedEntropy where
  guesses : Nat
  guesses_log10 : Option Nat
  crack_times : CrackTimes
  score : Score
  feedback : Option Feedback
  sequence : List Match
deriving DecidableEq, Repr

/-- Modelled from the spec: encoding an `Entropy` — a non-finite
`guesses_log10` becomes null/absent, finite values are kept. -/
def serializeEntropy (e : Entropy) : SerializedEntropy :=
  { guesses := e.guesses
    guesses_log10 := match e.guesses_log10 with
      | .negInf => none
      | .finite g => some g
    crack_times := e.crack_times
    score := e.score
    feedback := e.feedback
    sequence := e.sequence }

/-- Modelled from the spec: decoding a serialized record — a null/absent
`guesses_log10` is restored to the non-finite float. -/
def deserializeEntropy (s : SerializedEntropy) : Entropy :=
  { guesses := s.guesses
    guesses_log10 := match s.guesses_log10 with
      | none => .negInf
      | some g => .finite g
    crack_times := s.crack_times
    score := s.score
    feedback := s.feedback
    sequence := s.sequence }

/-! ## Coverage predicate

The claims about the winning sequence are stated through `coversB ms s t`:
the spans of `ms` are contiguous, non-overlapping, in order, and exactly
cover the character positions `[s, t)`. -/

/-- Coverage check: `coversB ms s t` holds when the spans of `ms`, in order,
tile the half-open interval of positions `[s, t)` exactly. -/
def coversB : List Match → Nat → Nat → Bool
  | [], s, t => s == t
  | m :: ms, s, t => m.i == s && s ≤ m.j && coversB ms (m.j + 1) t

/-- Well-formedness of a matcher-produced match: its span is non-degenerate
and its guess estimate is positive (the spec's `guesses` is always ≥ 1). -/
def matchOK (m : Match) : Prop := m.i ≤ m.j ∧ 0 < m.guesses

/-- Invariant of a DP state recorded at end-position `k`: its decomposition
tiles `[0, k]` exactly, and its guess product and total are positive. -/
def entryOK (k : Nat) (e : Entry) : Prop :=
  coversB e.seq 0 (k + 1) = true ∧ 0 < e.pi ∧ 0 < e.g

/-! ## Helper lemmas -/

theorem fact_pos (n : Nat) : 0 < fact n := by
  induction n with
  | zero => simp [fact]
  | succ n ih => exact Nat.mul_pos (Nat.succ_pos n) ih

theorem bruteforceGuesses_pos (len : Nat) : 0 < bruteforceGuesses len :=
  lt_of_lt_of_le (Nat.pos_pow_of_pos len (by norm_num)) (Nat.le_max_left _ _)

theorem insertEntry_ne_nil (cell : List Entry) (c : Entry) :
    insertEntry cell c ≠ [] := by
  unfold insertEntry
  split
  · next h =>
    intro hnil
    rw [hnil] at h
    simp at h
  · simp

theorem mem_insertEntry {cell : List Entry} {c e : Entry}
    (h : e ∈ insertEntry cell c) : e ∈ cell ∨ e = c := by
  unfold insertEntry at h
  split at h
  · exact .inl h
  · rcases List.mem_cons.mp h with h' | h'
    · exact .inr h'
    · exact .inl (List.mem_of_mem_filter h')

theorem mem_foldl_insertEntry :
    ∀ {cs : List Entry} {acc : List Entry} {e : Entry},
      e ∈ cs.foldl insertEntry acc → e ∈ acc ∨ e ∈ cs := by
  intro cs
  induction cs with
  | nil => exact fun h => .inl h
  | cons c cs ih =>
    intro acc e h
    rcases ih h with h' | h'
    · rcases mem_insertEntry h' with h'' | h''
      · exact .inl h''
      · exact .inr (by simp [h''])
    · exact .inr (List.mem_cons_of_mem _ h')

theorem foldl_insertEntry_ne_nil_of_acc {cs acc : List Entry} (h : acc ≠ []) :
    cs.foldl insertEntry acc ≠ [] := by
  induction cs generalizing acc with
  | nil => exact h
  | cons c cs ih => exact ih (insertEntry_ne_nil acc c)

theorem foldl_insertEntry_ne_nil {cs : List Entry} (h : cs ≠ []) :
    cs.foldl insertEntry [] ≠ [] := by
  cases cs with
  | nil => exact absurd rfl h
  | cons c cs =>
    show List.foldl insertEntry (insertEntry [] c) cs ≠ []
    exact foldl_insertEntry_ne_nil_of_acc (insertEntry_ne_nil [] c)

theorem coversB_append {m : Match} :
    ∀ {xs : List Match} {s : Nat}, coversB xs s m.i = true → m.i ≤ m.j →
      coversB (xs ++ [m]) s (m.j + 1) = true := by
  intro xs
  induction xs with
  | nil =>
    intro s h hm
    simp [coversB] at h
    simp [coversB, h, hm]
  | cons x xs ih =>
    intro s h hm
    simp [coversB] at h ⊢
    exact ⟨h.1, ih h.2 hm⟩

theorem coversB_ne_nil {ms : List Match} {s t : Nat} (h : s ≠ t)
    (hc : coversB ms s t = true) : ms ≠ [] := by
  cases ms with
  | nil => simp [coversB] at hc; exact absurd hc h
  | cons m ms => simp

theorem buildTable_length (ms : List Match) (n : Nat) :
    (buildTable ms n).length = n := by
  induction n with
  | zero => rfl
  | succ n ih => simp [buildTable, ih]

theorem buildTable_getD_last (ms : List Match) (n : Nat) :
    (buildTable ms (n + 1)).getD n [] = computeCell ms (buildTable ms n) n := by
  rw [buildTable, List.getD_eq_getElem?_getD,
    List.getElem?_append_right (by rw [buildTable_length]), buildTable_length,
    Nat.sub_self]
  rfl

theorem baseEntry_ok {m : Match} {k : Nat} (h0 : m.i = 0) (hjk : m.j = k)
    (hg : 0 < m.guesses) : entryOK k (baseEntry m) := by
  refine ⟨?_, hg, hg⟩
  simp [baseEntry, coversB, h0, hjk]

theorem extendEntry_ok {e : Entry} {m : Match} {k : Nat}
    (he : entryOK (m.i - 1) e) (h0 : m.i ≠ 0) (hij : m.i ≤ m.j) (hjk : m.j = k)
    (hg : 0 < m.guesses) : entryOK k (extendEntry e m) := by
  have hi : m.i - 1 + 1 = m.i := by omega
  have hpi : 0 < m.guesses * e.pi := Nat.mul_pos hg he.2.1
  refine ⟨?_, hpi, Nat.mul_pos (fact_pos _) hpi⟩
  have hc : coversB e.seq 0 m.i = true := by
    have := he.1
    rwa [hi] at this
  have := coversB_append hc hij
  rwa [hjk] at this

theorem computeCell_ok {ms : List Match} (hms : ∀ m ∈ ms, matchOK m)
    {t : List (List Entry)} (ht : ∀ k e, e ∈ t.getD k [] → entryOK k e)
    (k : Nat) : ∀ e ∈ computeCell ms t k, entryOK k e := by
  intro e h
  rcases mem_foldl_insertEntry h with h' | h'
  · simp at h'
  · rcases List.mem_append.mp h' with h' | h'
    · -- candidates from real matches ending at k
      rcases List.mem_flatMap.mp h' with ⟨m, hm, he⟩
      have hmj : m.j = k := by
        have := (List.mem_filter.mp hm).2
        simpa using this
      have hmok := hms m (List.mem_filter.mp hm).1
      unfold candidatesFor at he
      split at he
      · next h0 =>
        simp at he
        rw [he]
        exact baseEntry_ok h0 hmj hmok.2
      · next h0 =>
        rcases List.mem_map.mp he with ⟨e', he', rfl⟩
        exact extendEntry_ok (ht (m.i - 1) e' he') h0 hmok.1 hmj hmok.2
    · -- candidates from the bruteforce fillers
      rcases List.mem_flatMap.mp h' with ⟨i, hi, he⟩
      have hik : i ≤ k := by
        have := List.mem_range.mp hi
        omega
      split at he
      · next h0 =>
        simp at he
        rw [he]
        exact baseEntry_ok rfl rfl (bruteforceGuesses_pos _)
      · next h0 =>
        rcases List.mem_filterMap.mp he with ⟨e', he', hcond⟩
        split at hcond
        · exact absurd hcond (by simp)
        · have := Option.some.inj hcond
          rw [← this]
          exact extendEntry_ok (ht (i - 1) e' he') h0 hik rfl
            (bruteforceGuesses_pos _)

theorem buildTable_ok (ms : List Match) (hms : ∀ m ∈ ms, matchOK m) :
    ∀ (n k : Nat) (e : Entry), e ∈ (buildTable ms n).getD k [] → entryOK k e := by
  intro n
  induction n with
  | zero =>
    intro k e h
    simp [buildTable] at h
  | succ n ih =>
    intro k e h
    by_cases hk : k < n
    · rw [buildTable, List.getD_eq_getElem?_getD, List.getElem?_append,
        if_pos (by rw [buildTable_length]; exact hk),
        ← List.getD_eq_getElem?_getD] at h
      exact ih k e h
    · by_cases hk' : k = n
      · subst hk'
        rw [buildTable_getD_last] at h
        exact computeCell_ok hms ih k e h
      · rw [buildTable, List.getD_eq_getElem?_getD,
          List.getElem?_eq_none (by simp [buildTable_length]; omega)] at h
        simp at h

theorem computeCell_ne_nil (ms : List Match) (t : List (List Entry)) (k : Nat) :
    computeCell ms t k ≠ [] := by
  apply foldl_insertEntry_ne_nil
  intro hnil
  have hmem : baseEntry (bruteforceMatch 0 k) ∈ bruteforceCandidates t k := by
    apply List.mem_flatMap.mpr
    exact ⟨0, by simp, by simp⟩
  rw [(List.append_eq_nil.mp hnil).2] at hmem
  simp at hmem

theorem pickFold_mem (cs : List Entry) :
    ∀ b : Entry, cs.foldl (fun b x =>
      if x.g < b.g ∨ (x.g = b.g ∧ x.l < b.l) then x else b) b ∈ b :: cs := by
  induction cs with
  | nil => intro b; simp
  | cons x cs ih =>
    intro b
    simp only [List.foldl_cons]
    have h := ih (if x.g < b.g ∨ (x.g = b.g ∧ x.l < b.l) then x else b)
    rcases List.mem_cons.mp h with h' | h'
    · rw [h']
      split
      · simp
      · simp
    · simp [List.mem_cons_of_mem, h']

theorem pickBest_mem {cell : List Entry} {e : Entry}
    (h : pickBest cell = some e) : e ∈ cell := by
  cases cell with
  | nil => simp [pickBest] at h
  | cons c cs =>
    have he := Option.some.inj h
    rw [← he]
    exact pickFold_mem cs c

theorem pickBest_isSome {cell : List Entry} (h : cell ≠ []) :
    ∃ e, pickBest cell = some e := by
  cases cell with
  | nil => exact absurd rfl h
  | cons c cs => exact ⟨_, rfl⟩

theorem mg_total (pw : List Char) (ms : List Match) :
    ∃ r, most_guessable_match_sequence pw ms = some r := by
  unfold most_guessable_match_sequence
  by_cases h : pw.length = 0
  · simp [h]
  · rw [if_neg h]
    obtain ⟨n', hn⟩ : ∃ n', pw.length = n' + 1 := ⟨pw.length - 1, by omega⟩
    rw [hn, Nat.add_sub_cancel, buildTable_getD_last]
    obtain ⟨e, he⟩ := pickBest_isSome (computeCell_ne_nil ms _ n')
    rw [he]
    exact ⟨_, rfl⟩

theorem mg_spec {pw : List Char} {ms : List Match} (hpw : pw.length ≠ 0)
    (hms : ∀ m ∈ ms, matchOK m) {r : ScoringResult}
    (h : most_guessable_match_sequence pw ms = some r) :
    ∃ g, 0 < g ∧ r.guesses = min g U64_MAX ∧ r.guesses_log10 = .finite g ∧
      coversB r.sequence 0 pw.length = true := by
  unfold most_guessable_match_sequence at h
  rw [if_neg hpw] at h
  rcases heq : pickBest ((buildTable ms pw.length).getD (pw.length - 1) [])
    with _ | e
  · rw [heq] at h
    simp at h
  · rw [heq] at h
    have hmem := pickBest_mem heq
    have hok := buildTable_ok ms hms pw.length (pw.length - 1) e hmem
    have hr := Option.some.inj h
    have hcov : coversB e.seq 0 pw.length = true := by
      have := hok.1
      have hlen : pw.length - 1 + 1 = pw.length := by omega
      rwa [hlen] at this
    exact ⟨e.g, hok.2.2, by rw [← hr], by rw [← hr], by rw [← hr]; exact hcov⟩

theorem sanitizeInputsFrom_rank_pos :
    ∀ (xs : List String) (idx : Nat) (p : List Char × Nat),
      p ∈ sanitizeInputsFrom idx xs → 1 ≤ p.2 := by
  intro xs
  induction xs with
  | nil => intro idx p hp; simp [sanitizeInputsFrom] at hp
  | cons x xs ih =>
    intro idx p hp
    rcases List.mem_cons.mp hp with h | h
    · rw [h]
      exact Nat.succ_le_succ (Nat.zero_le idx)
    · exact ih (idx + 1) p h

theorem lookupRank_mem {ranked : List (List Char × Nat)} {w : List Char}
    {r : Nat} (h : lookupRank ranked w = some r) : ∃ p ∈ ranked, p.2 = r := by
  unfold lookupRank at h
  rcases hf : ranked.find? (fun p => p.1 == w) with _ | p
  · rw [hf] at h
    simp at h
  · rw [hf] at h
    simp at h
    exact ⟨p, List.mem_of_find?_eq_some hf, h⟩

theorem uppercaseVariations_pos (token : List Char) :
    0 < uppercaseVariations token := by
  unfold uppercaseVariations
  dsimp only
  split
  · exact Nat.one_pos
  · split
    · exact Nat.one_pos
    · exact lt_of_lt_of_le (by norm_num) (Nat.le_max_left _ _)

theorem dictionaryMatch_ok (pw : List Char) (ranked : List (List Char × Nat))
    (hr : ∀ p ∈ ranked, 1 ≤ p.2) :
    ∀ m ∈ dictionaryMatch pw ranked, matchOK m := by
  intro m hm
  unfold dictionaryMatch at hm
  rcases List.mem_flatMap.mp hm with ⟨i, _, hm⟩
  rcases List.mem_filterMap.mp hm with ⟨j, _, hm⟩
  split at hm
  · next hij =>
    rcases hl : lookupRank ranked (((slice pw i j).map lowerChar)) with _ | rank
    · rw [hl] at hm
      simp at hm
    · rw [hl] at hm
      simp at hm
      obtain ⟨p, _, hp2⟩ := lookupRank_mem hl
      have hrank : 1 ≤ rank := hp2 ▸ hr p (by assumption)
      constructor
      · rw [← hm]
        exact hij
      · rw [← hm]
        exact Nat.mul_pos hrank (uppercaseVariations_pos _)
  · simp at hm

theorem omnimatch_ok (pw : List Char) (userInputs : List String) :
    ∀ m ∈ omnimatch pw (sanitizeInputs userInputs), matchOK m :=
  dictionaryMatch_ok pw _
    (fun p hp => sanitizeInputsFrom_rank_pos userInputs 0 p hp)

theorem zxcvbnOpt_eq (p : String) (ui : List String) :
    zxcvbnOpt p ui = some (zxcvbn p ui) := by
  unfold zxcvbn
  by_cases hp : p.data = []
  · simp [zxcvbnOpt, hp]
  · obtain ⟨r, hr⟩ := mg_total (p.data.take 100)
      (omnimatch (p.data.take 100) (sanitizeInputs ui))
    simp [zxcvbnOpt, hp, hr]

theorem take100_length_ne_zero {p : String} (hp : p.data ≠ []) :
    (p.data.take 100).length ≠ 0 := by
  simp only [List.length_take]
  have : p.data.length ≠ 0 := fun h => hp (List.length_eq_zero.mp h)
  omega

theorem zxcvbn_spec (p : String) (ui : List String) (hp : p.data ≠ []) :
    ∃ g, 0 < g ∧ (zxcvbn p ui).guesses = min g U64_MAX ∧
      (zxcvbn p ui).guesses_log10 = .finite g ∧
      coversB (zxcvbn p ui).sequence 0 (p.data.take 100).length = true := by
  obtain ⟨r, hr⟩ := mg_total (p.data.take 100)
    (omnimatch (p.data.take 100) (sanitizeInputs ui))
  have hz : zxcvbn p ui = assembleEntropy r := by
    unfold zxcvbn zxcvbnOpt
    rw [if_neg hp, hr]
    rfl
  obtain ⟨g, hg, hmin, hlog, hcov⟩ :=
    mg_spec (take100_length_ne_zero hp) (omnimatch_ok _ ui) hr
  exact ⟨g, hg, by rw [hz]; exact hmin, by rw [hz]; exact hlog,
    by rw [hz]; exact hcov⟩

theorem sanitizeInputsFrom_fst :
    ∀ (xs : List String) (idx : Nat),
      (sanitizeInputsFrom idx xs).map Prod.fst =
        xs.map (fun s => s.data.map lowerChar) := by
  intro xs
  induction xs with
  | nil => intro idx; rfl
  | cons x xs ih => intro idx; simp [sanitizeInputsFrom, ih]

theorem sanitizeInputsFrom_snd :
    ∀ (xs : List String) (idx : Nat),
      (sanitizeInputsFrom idx xs).map Prod.snd =
        List.range' (idx + 1) xs.length := by
  intro xs
  induction xs with
  | nil => intro idx; rfl
  | cons x xs ih =>
    intro idx
    simp [sanitizeInputsFrom, List.range'_succ, ih]

/-! ## Claim theorems -/

/-- C1: for every password string (including the empty string, single
characters, pathological repeats, and arbitrary non-ASCII Unicode) and every
list of user inputs, the public analysis function `zxcvbn(password,
user_inputs)` is total: it returns an `Entropy` value and never panics,
raises, or aborts (`zxcvbnOpt`, whose `none` models a panic, always returns
`some`). -/
theorem zxcvbn_total (password : String) (userInputs : List String) :
    ∃ e, zxcvbnOpt password userInputs = some e :=
  ⟨zxcvbn password userInputs, zxcvbnOpt_eq password userInputs⟩

/-- C2: for every password and user-input list, the `sequence` field of the
`Entropy` returned by `zxcvbn` is an ordered list of matches whose spans are
contiguous, non-overlapping, and exactly cover positions `[0, n)` of the
(possibly truncated to 100 characters) password; for a non-empty password
the sequence is non-empty, and for the empty password it is empty. -/
theorem zxcvbn_sequence_covers (p : String) (ui : List String) :
    coversB (zxcvbn p ui).sequence 0 (p.data.take 100).length = true ∧
    (p.data ≠ [] → (zxcvbn p ui).sequence ≠ []) ∧
    (p.data = [] → (zxcvbn p ui).sequence = []) := by
  by_cases hp : p.data = []
  · have hz : zxcvbn p ui = emptyEntropy := by
      unfold zxcvbn zxcvbnOpt
      rw [if_pos hp]
      rfl
    refine ⟨?_, fun h => absurd hp h, fun _ => by rw [hz]; rfl⟩
    rw [hz, hp]
    rfl
  · obtain ⟨g, _, _, _, hcov⟩ := zxcvbn_spec p ui hp
    refine ⟨hcov, fun _ => ?_, fun h => absurd h hp⟩
    exact coversB_ne_nil
      (by have := take100_length_ne_zero hp; omega) hcov

/-- Witness for C2 at the concrete password "ab": the winning sequence is
non-empty. -/
theorem zxcvbn_sequence_covers_witness : (zxcvbn "ab" []).sequence ≠ [] :=
  (zxcvbn_sequence_covers "ab" []).2.1 (by decide)

/-- C3: `zxcvbn("", user_inputs)` (the empty password, for any user inputs)
returns total guesses equal to 0, score 0, `guesses_log10` equal to negative
infinity, an empty match sequence, and no feedback. -/
theorem zxcvbn_empty_password (ui : List String) :
    (zxcvbn "" ui).guesses = 0 ∧ (zxcvbn "" ui).score = Score.Zero ∧
    (zxcvbn "" ui).guesses_log10 = GLog.negInf ∧
    (zxcvbn "" ui).sequence = [] ∧ (zxcvbn "" ui).feedback = none :=
  ⟨rfl, rfl, rfl, rfl, rfl⟩

/-- C4: for every non-empty password the total-guesses accumulation never
wraps and never panics: the guesses field is saturated at the maximum
representable unsigned 64-bit value (it is `min g U64_MAX` for the positive
unsaturated winning total `g`, hence never exceeds `U64_MAX`), and
`guesses_log10` stays finite; in particular
`zxcvbn("!QASW@#EDFR$%TGHY^&UJKI*(OL", [])` yields guesses equal to
`u64::MAX` and score 4. -/
theorem zxcvbn_guesses_saturation :
    (∀ (p : String) (ui : List String), p.data ≠ [] →
      (zxcvbn p ui).guesses ≤ U64_MAX ∧
      ∃ g, 0 < g ∧ (zxcvbn p ui).guesses = min g U64_MAX ∧
        (zxcvbn p ui).guesses_log10 = GLog.finite g) ∧
    (zxcvbn "!QASW@#EDFR$%TGHY^&UJKI*(OL" []).guesses = U64_MAX ∧
    (zxcvbn "!QASW@#EDFR$%TGHY^&UJKI*(OL" []).score = Score.Four := by
  refine ⟨?_, by decide, by decide⟩
  intro p ui hp
  obtain ⟨g, hg, hmin, hlog, _⟩ := zxcvbn_spec p ui hp
  exact ⟨by rw [hmin]; exact Nat.min_le_right _ _, g, hg, hmin, hlog⟩

/-- Witness for C4 at the concrete password "a": the guesses field does not
exceed the saturation bound. -/
theorem zxcvbn_guesses_saturation_witness : (zxcvbn "a" []).guesses ≤ U64_MAX :=
  (zxcvbn_guesses_saturation.1 "a" [] (by decide)).1

/-- C5: truncation idempotence — for every password `p` and every password
`q` that agrees with `p` on the first 100 Unicode scalar values, and for
every fixed user-input list, `zxcvbn(p, inputs)` and `zxcvbn(q, inputs)`
return the same result: characters beyond position 100 never affect any
field of the returned `Entropy`. -/
theorem zxcvbn_truncation_idempotent (p q : String) (ui : List String)
    (h : p.data.take 100 = q.data.take 100) : zxcvbn p ui = zxcvbn q ui := by
  unfold zxcvbn zxcvbnOpt
  by_cases hp : p.data = []
  · have hq : q.data = [] := by
      have h0 : q.data.take 100 = [] := by rw [← h, hp]; rfl
      rcases List.take_eq_nil_iff.mp h0 with h' | h'
      · exact absurd h' (by norm_num)
      · exact h'
    rw [if_pos hp, if_pos hq]
  · have hq : q.data ≠ [] := by
      intro hq
      apply hp
      have h0 : p.data.take 100 = [] := by rw [h, hq]; rfl
      rcases List.take_eq_nil_iff.mp h0 with h' | h'
      · exact absurd h' (by norm_num)
      · exact h'
    rw [if_neg hp, if_neg hq, h]

/-- Witness for C5: two 101-character passwords that differ only at position
100 (0-indexed) produce identical results. -/
theorem zxcvbn_truncation_idempotent_witness :
    zxcvbn "aaaaaaaaaaaaaaaaaaaaaaaaaaaaaaaaaaaaaaaaaaaaaaaaaaaaaaaaaaaaaaaaaaaaaaaaaaaaaaaaaaaaaaaaaaaaaaaaaaaab" [] = zxcvbn "aaaaaaaaaaaaaaaaaaaaaaaaaaaaaaaaaaaaaaaaaaaaaaaaaaaaaaaaaaaaaaaaaaaaaaaaaaaaaaaaaaaaaaaaaaaaaaaaaaaac" [] :=
  zxcvbn_truncation_idempotent _ _ [] (by decide)

/-- C6: before matching, the user-input list is sanitized by case-folding
each entry and pairing it with a 1-based rank equal to its position in the
order given by the caller; the sanitized list `sanitizeInputs ui` (the list
`zxcvbnOpt` hands to `omnimatch`) carries the case-folded entries in the
caller's order, ranked `1, 2, ...`. -/
theorem zxcvbn_sanitize_user_inputs (ui : List String) :
    (sanitizeInputs ui).map Prod.fst =
      ui.map (fun s => s.data.map lowerChar) ∧
    (sanitizeInputs ui).map Prod.snd = List.range' 1 ui.length := by
  refine ⟨sanitizeInputsFrom_fst ui 0, ?_⟩
  have h := sanitizeInputsFrom_snd ui 0
  simpa using h

/-- C7: serialization round-trip — encoding an `Entropy` and decoding it
reproduces all fields exactly (in the exact-arithmetic model, for every
`guesses_log10`), and for the empty-password case the non-finite
`guesses_log10` is serialized as a null/absent value rather than failing and
is deserialized back to the non-finite value. -/
theorem entropy_serialization_roundtrip :
    (∀ e : Entropy, deserializeEntropy (serializeEntropy e) = e) ∧
    (serializeEntropy (zxcvbn "" [])).guesses_log10 = none ∧
    (deserializeEntropy (serializeEntropy (zxcvbn "" []))).guesses_log10 =
      GLog.negInf := by
  refine ⟨?_, rfl, rfl⟩
  intro e
  cases e with
  | mk guesses glog ct sc fb seq => cases glog <;> rfl

/-- C8: the score is a deterministic, non-decreasing step function of the
guess count: ascending thresholds 10³, 10⁶, 10⁸, 10¹⁰ map guesses to scores
0 through 4, with guesses below the first threshold giving score 0 and at or
above the last giving score 4. -/
theorem score_step_function :
    (∀ g g', g ≤ g' →
      ((estimate_attack_times g).2).toNat ≤
        ((estimate_attack_times g').2).toNat) ∧
    (∀ g, g < 10 ^ 3 → (estimate_attack_times g).2 = Score.Zero) ∧
    (∀ g, 10 ^ 3 ≤ g → g < 10 ^ 6 → (estimate_attack_times g).2 = Score.One) ∧
    (∀ g, 10 ^ 6 ≤ g → g < 10 ^ 8 → (estimate_attack_times g).2 = Score.Two) ∧
    (∀ g, 10 ^ 8 ≤ g → g < 10 ^ 10 →
      (estimate_attack_times g).2 = Score.Three) ∧
    (∀ g, 10 ^ 10 ≤ g → (estimate_attack_times g).2 = Score.Four) := by
  refine ⟨?_, ?_, ?_, ?_, ?_, ?_⟩
  · intro g g' h
    unfold estimate_attack_times scoreFromGuesses
    dsimp only
    split_ifs <;> simp [Score.toNat] <;> omega
  · intro g h
    unfold estimate_attack_times scoreFromGuesses
    dsimp only
    rw [if_pos h]
  · intro g h1 h2
    unfold estimate_attack_times scoreFromGuesses
    dsimp only
    rw [if_neg (by omega), if_pos h2]
  · intro g h1 h2
    unfold estimate_attack_times scoreFromGuesses
    dsimp only
    rw [if_neg (by omega), if_neg (by omega), if_pos h2]
  · intro g h1 h2
    unfold estimate_attack_times scoreFromGuesses
    dsimp only
    rw [if_neg (by omega), if_neg (by omega), if_neg (by omega), if_pos h2]
  · intro g h
    unfold estimate_attack_times scoreFromGuesses
    dsimp only
    rw [if_neg (by omega), if_neg (by omega), if_neg (by omega),
      if_neg (by omega)]

/-- Witness for C8 at concrete guess counts: monotone between 10 and 2·10¹⁰,
score 0 below the first threshold, score 4 at the top. -/
theorem score_step_function_witness :
    ((estimate_attack_times 10).2).toNat ≤
      ((estimate_attack_times 20000000000).2).toNat ∧
    (estimate_attack_times 10).2 = Score.Zero ∧
    (estimate_attack_times 20000000000).2 = Score.Four :=
  ⟨score_step_function.1 10 20000000000 (by norm_num),
   score_step_function.2.1 10 (by norm_num),
   score_step_function.2.2.2.2.2 20000000000 (by norm_num)⟩

/-- C9: determinism — for every password and user-input list, two calls to
`zxcvbn` with the same arguments return `Entropy` values equal in every
modelled field (the elapsed calculation time is external instrumentation and
is not part of the model). -/
theorem zxcvbn_deterministic (p : String) (ui : List String) (e₁ e₂ : Entropy)
    (h₁ : zxcvbnOpt p ui = some e₁) (h₂ : zxcvbnOpt p ui = some e₂) :
    e₁ = e₂ := by
  rw [h₁] at h₂
  exact Option.some.inj h₂

/-- Witness for C9 at the empty password: the two calls both return the
empty-password result. -/
theorem zxcvbn_deterministic_witness : emptyEntropy = emptyEntropy :=
  zxcvbn_deterministic "" [] emptyEntropy emptyEntropy rfl rfl

/-- C10: field consistency — for every non-empty password, the `Entropy`
returned by `zxcvbn` satisfies `(crack_times, score) =
estimate_attack_times(guesses)` and `feedback = get_feedback(score,
sequence)`: crack times, score, and feedback are derived from the guesses
and sequence fields of the same result. -/
theorem zxcvbn_field_consistency (p : String) (ui : List String)
    (hp : p.data ≠ []) :
    (zxcvbn p ui).crack_times =
      (estimate_attack_times (zxcvbn p ui).guesses).1 ∧
    (zxcvbn p ui).score = (estimate_attack_times (zxcvbn p ui).guesses).2 ∧
    (zxcvbn p ui).feedback =
      get_feedback (zxcvbn p ui).score (zxcvbn p ui).sequence := by
  obtain ⟨r, hr⟩ := mg_total (p.data.take 100)
    (omnimatch (p.data.take 100) (sanitizeInputs ui))
  have hz : zxcvbn p ui = assembleEntropy r := by
    unfold zxcvbn zxcvbnOpt
    rw [if_neg hp, hr]
    rfl
  rw [hz]
  exact ⟨rfl, rfl, rfl⟩

/-- Witness for C10 at the concrete password "a": the crack-times field is
the one derived from the guesses field. -/
theorem zxcvbn_field_consistency_witness :
    (zxcvbn "a" []).crack_times =
      (estimate_attack_times (zxcvbn "a" []).guesses).1 :=
  (zxcvbn_field_consistency "a" [] (by decide)).1

end Zxcvbn

